import Mathlib

/-!
Verification of the font classification/explosion core of `otfinst.py`.

The Python source is shallowly embedded: Python lists become `List`,
Python dicts (which preserve insertion order) become association lists
`List (String × β)`, `dict[k] = v` becomes `setField`, the
"create level if absent, then mutate" idiom becomes `modifyD`, and a
Python `KeyError` on a missing dictionary key becomes `Except.error`
naming the key.
-/

namespace Otfinst

/-! ### list-to-string / string-to-list primitives (`l2s`, `s2l`, `sep`) -/

/-- The separator used to join token lists into strings (`sep = "-"`). -/
def sep : String := "-"

/-- The separator as a character. -/
def sepChar : Char := '-'

/-- `sep.join(l)` from the source: join a token list with `"-"`. -/
def l2s : List String → String
  | [] => ""
  | [x] => x
  | x :: xs => x ++ sep ++ l2s xs

/-- Helper for Python `s.split("-")`: split a character list at every
separator character, accumulating the current (reversed) token. -/
def splitAux : List Char → List Char → List (List Char)
  | [], acc => [acc.reverse]
  | c :: cs, acc =>
    if c = sepChar then acc.reverse :: splitAux cs []
    else splitAux cs (c :: acc)

/-- Python `s.split("-")` (non-collapsing, keeps empty pieces). -/
def pySplit (s : String) : List String := (splitAux s.data []).map String.mk

/-- `s2l` from the source: `[]` on the empty string, else `s.split("-")`. -/
def s2l (s : String) : List String := if s = "" then [] else pySplit s

/-! ### stable dedup (`unique`) -/

/-- Helper for `unique`: drop elements already seen. -/
def uniqueAux : List String → List String → List String
  | [], _ => []
  | x :: xs, seen =>
    if x ∈ seen then uniqueAux xs seen else x :: uniqueAux xs (x :: seen)

/-- `unique` from the source: deduplicate preserving first-seen order. -/
def unique (s : List String) : List String := uniqueAux s []

/-! ### Python string sort (`list.sort()` on lowercase ASCII tokens):
lexicographic comparison by code point, realised by a stable insertion
sort.  Python's sort is stable and lexicographic; since the order is
antisymmetric the sorted permutation is unique, so any sort computing
the lexicographic order is extensionally `list.sort()`. -/

/-- Lexicographic comparison of character lists by code point. -/
def charListLe : List Char → List Char → Bool
  | [], _ => true
  | _ :: _, [] => false
  | a :: as, b :: bs =>
    if a.toNat = b.toNat then charListLe as bs else decide (a.toNat < b.toNat)

/-- Lexicographic `≤` on strings, as Python compares strings. -/
def strLe (a b : String) : Bool := charListLe a.data b.data

/-- Insert into a sorted list, keeping an element before later equals
(stability, as Python's sort). -/
def insertSorted (x : String) : List String → List String
  | [] => [x]
  | y :: ys => if strLe x y then x :: y :: ys else y :: insertSorted x ys

/-- Python `list.sort()` on strings. -/
def sortTokens : List String → List String
  | [] => []
  | x :: xs => insertSorted x (sortTokens xs)

/-! ### basic lemmas about the primitives -/

theorem l2s_nil : l2s [] = "" := rfl

theorem l2s_single (x : String) : l2s [x] = x := rfl

theorem l2s_cons_cons (x y : String) (t : List String) :
    l2s (x :: y :: t) = x ++ sep ++ l2s (y :: t) := rfl

theorem data_append (a b : String) : (a ++ b).data = a.data ++ b.data := by
  cases a; cases b; rfl

theorem l2s_cons_cons_data (x y : String) (t : List String) :
    (l2s (x :: y :: t)).data = x.data ++ sepChar :: (l2s (y :: t)).data := by
  rw [l2s_cons_cons, data_append, data_append]
  simp [sep, sepChar]

theorem eq_empty_iff_data (s : String) : s = "" ↔ s.data = [] := by
  constructor
  · intro h; rw [h]
  · intro h; cases s with
    | mk d => cases h; rfl

theorem splitAux_no_sep (a : List Char) (h : sepChar ∉ a) :
    ∀ (rest acc : List Char), splitAux (a ++ rest) acc = splitAux rest (a.reverse ++ acc) := by
  induction a with
  | nil => simp
  | cons c cs ih =>
    intro rest acc
    have hc : c ≠ sepChar := fun hh => h (hh ▸ List.mem_cons_self c cs)
    have hcs : sepChar ∉ cs := fun hh => h (List.mem_cons_of_mem c hh)
    simp only [List.cons_append, splitAux, if_neg hc, List.append_eq]
    rw [ih hcs rest (c :: acc)]
    simp

theorem splitAux_l2s (l : List String) (hne : l ≠ [])
    (h : ∀ s ∈ l, s ≠ "" ∧ sepChar ∉ s.data) :
    splitAux (l2s l).data [] = l.map String.data := by
  induction l with
  | nil => exact absurd rfl hne
  | cons x t ih =>
    cases t with
    | nil =>
      have hx := h x (List.mem_cons_self x [])
      have h1 : splitAux (x.data ++ []) [] = splitAux [] x.data.reverse := by
        simpa using splitAux_no_sep x.data hx.2 [] []
      simpa [splitAux, l2s_single] using h1
    | cons y t2 =>
      have hx := h x (List.mem_cons_self x _)
      rw [l2s_cons_cons_data]
      rw [splitAux_no_sep x.data hx.2 (sepChar :: (l2s (y :: t2)).data) []]
      have hrec : splitAux (l2s (y :: t2)).data [] = (y :: t2).map String.data :=
        ih (by simp) (fun s hs => h s (List.mem_cons_of_mem x hs))
      simp [splitAux, hrec]

theorem l2s_ne_empty (x : String) (t : List String) (hx : x ≠ "") :
    l2s (x :: t) ≠ "" := by
  cases t with
  | nil => simpa [l2s_single] using hx
  | cons y t2 =>
    intro hcontra
    have hd := congrArg String.data hcontra
    rw [l2s_cons_cons_data] at hd
    have hxd : x.data ≠ [] := fun hh => hx ((eq_empty_iff_data x).2 hh)
    cases hx2 : x.data with
    | nil => exact hxd hx2
    | cons c cs => rw [hx2] at hd; simp at hd

theorem mk_data (s : String) : String.mk s.data = s := by cases s; rfl

/-- Round-trip: splitting a hyphen-join of non-empty hyphen-free tokens
recovers the tokens. -/
theorem s2l_l2s (l : List String) (h : ∀ s ∈ l, s ≠ "" ∧ sepChar ∉ s.data) :
    s2l (l2s l) = l := by
  cases l with
  | nil => rfl
  | cons x t =>
    have hx := h x (List.mem_cons_self x t)
    have hne := l2s_ne_empty x t hx.1
    rw [s2l, if_neg hne, pySplit, splitAux_l2s (x :: t) (by simp) h]
    rw [List.map_map]
    have : (String.mk ∘ String.data) = id := by
      funext s; simp [mk_data s]
    rw [this, List.map_id]

/-! ### correctness of the token sort -/

theorem insertSorted_perm (x : String) (l : List String) :
    List.Perm (insertSorted x l) (x :: l) := by
  induction l with
  | nil => simp [insertSorted]
  | cons y ys ih =>
    by_cases h : strLe x y = true
    · simp [insertSorted, h]
    · simp only [insertSorted, if_neg h]
      exact (List.Perm.cons y ih).trans (List.Perm.swap x y ys)

theorem sortTokens_perm (l : List String) : List.Perm (sortTokens l) l := by
  induction l with
  | nil => simp [sortTokens]
  | cons x xs ih =>
    exact (insertSorted_perm x (sortTokens xs)).trans (List.Perm.cons x ih)

theorem charListLe_total (a b : List Char) :
    charListLe a b = true ∨ charListLe b a = true := by
  induction a generalizing b with
  | nil => left; rfl
  | cons c cs ih =>
    cases b with
    | nil => right; rfl
    | cons d ds =>
      by_cases h : c.toNat = d.toNat
      · have h2 : d.toNat = c.toNat := h.symm
        simp only [charListLe, if_pos h, if_pos h2]
        exact ih ds
      · have h2 : d.toNat ≠ c.toNat := fun hh => h hh.symm
        simp only [charListLe, if_neg h, if_neg h2, decide_eq_true_eq]
        omega

theorem strLe_total (a b : String) : strLe a b = true ∨ strLe b a = true :=
  charListLe_total a.data b.data

theorem charListLe_trans (a b c : List Char) (h1 : charListLe a b = true)
    (h2 : charListLe b c = true) : charListLe a c = true := by
  induction a generalizing b c with
  | nil => rfl
  | cons x xs ih =>
    cases b with
    | nil => simp [charListLe] at h1
    | cons y ys =>
      cases c with
      | nil => simp [charListLe] at h2
      | cons z zs =>
        by_cases hxy : x.toNat = y.toNat
        · by_cases hyz : y.toNat = z.toNat
          · have hxz : x.toNat = z.toNat := hxy.trans hyz
            simp only [charListLe, if_pos hxy] at h1
            simp only [charListLe, if_pos hyz] at h2
            simp only [charListLe, if_pos hxz]
            exact ih ys zs h1 h2
          · simp only [charListLe, if_neg hyz, decide_eq_true_eq] at h2
            have hxz : ¬ x.toNat = z.toNat := by omega
            simp only [charListLe, if_neg hxz, decide_eq_true_eq]
            omega
        · simp only [charListLe, if_neg hxy, decide_eq_true_eq] at h1
          by_cases hyz : y.toNat = z.toNat
          · have hxz : ¬ x.toNat = z.toNat := by omega
            simp only [charListLe, if_neg hxz, decide_eq_true_eq]
            omega
          · simp only [charListLe, if_neg hyz, decide_eq_true_eq] at h2
            have hxz : ¬ x.toNat = z.toNat := by omega
            simp only [charListLe, if_neg hxz, decide_eq_true_eq]
            omega

theorem strLe_trans (a b c : String) (h1 : strLe a b = true) (h2 : strLe b c = true) :
    strLe a c = true :=
  charListLe_trans a.data b.data c.data h1 h2

theorem insertSorted_pairwise (x : String) (l : List String)
    (h : l.Pairwise (fun a b => strLe a b = true)) :
    (insertSorted x l).Pairwise (fun a b => strLe a b = true) := by
  induction l with
  | nil => simp [insertSorted]
  | cons y ys ih =>
    by_cases hxy : strLe x y = true
    · simp only [insertSorted, if_pos hxy]
      refine List.Pairwise.cons ?_ h
      intro z hz
      rcases List.mem_cons.1 hz with rfl | hz2
      · exact hxy
      · exact strLe_trans x y z hxy ((List.pairwise_cons.1 h).1 z hz2)
    · simp only [insertSorted, if_neg hxy]
      have hyx : strLe y x = true := by
        rcases strLe_total x y with ht | ht
        · exact absurd ht hxy
        · exact ht
      have hys := (List.pairwise_cons.1 h).2
      refine List.Pairwise.cons ?_ (ih hys)
      intro z hz
      have hz2 := (insertSorted_perm x ys).mem_iff.1 hz
      rcases List.mem_cons.1 hz2 with rfl | hz3
      · exact hyx
      · exact (List.pairwise_cons.1 h).1 z hz3

theorem sortTokens_pairwise (l : List String) :
    (sortTokens l).Pairwise (fun a b => strLe a b = true) := by
  induction l with
  | nil => simp [sortTokens]
  | cons x xs ih => exact insertSorted_pairwise x (sortTokens xs) ih

/-! ### the subfamily-token axis classification of `addToFonthash`
(lines 418-456 of the source): collect the subfamily tokens recognized
for each axis, sort them, and hyphen-join them. -/

/-- The weight membership table from `addToFonthash` (verbatim,
including the duplicated `"regular"`). -/
def weightClassList : List String :=
  ["regular", "thin", "extralight", "light", "book", "medium", "regular",
   "demibold", "semibold", "bold", "extrabold", "black", "heavy"]

/-- The width membership table from `addToFonthash`. -/
def widthClassList : List String :=
  ["regular", "condensed", "cond", "cn", "semicondensed", "narrow",
   "semiextended", "extended"]

/-- The variant membership table from `addToFonthash`. -/
def variantClassList : List String :=
  ["regular", "italic", "it", "slanted", "oblique", "outline"]

/-- The per-axis field computation of `addToFonthash`: filter the
subfamily tokens through the axis membership table, sort, hyphen-join. -/
def axisField (classes : List String) (subfamily : List String) : String :=
  l2s (sortTokens (subfamily.filter (fun s => s ∈ classes)))

/-- `fonthash[name]["weight"]` as computed by `addToFonthash`. -/
def subfamilyWeight (subfamily : List String) : String :=
  axisField weightClassList subfamily

/-- `fonthash[name]["width"]` as computed by `addToFonthash`. -/
def subfamilyWidth (subfamily : List String) : String :=
  axisField widthClassList subfamily

/-- `fonthash[name]["variant"]` as computed by `addToFonthash`. -/
def subfamilyVariant (subfamily : List String) : String :=
  axisField variantClassList subfamily

/-- What the per-axis fields actually satisfy: the split field is a
sorted permutation of the recognized subfamily tokens (duplicates
retained), and the field is the empty string when no token matches. -/
theorem axisField_spec (classes sf : List String)
    (hc : ∀ c ∈ classes, c ≠ "" ∧ sepChar ∉ c.data) :
    List.Perm (s2l (axisField classes sf)) (sf.filter (fun s => s ∈ classes))
    ∧ (s2l (axisField classes sf)).Pairwise (fun a b => strLe a b = true)
    ∧ (sf.filter (fun s => s ∈ classes) = [] → axisField classes sf = "") := by
  have hmem : ∀ s ∈ sortTokens (sf.filter (fun s => s ∈ classes)),
      s ≠ "" ∧ sepChar ∉ s.data := by
    intro s hs
    have h1 : s ∈ sf.filter (fun s => s ∈ classes) :=
      (sortTokens_perm _).mem_iff.1 hs
    have h2 : s ∈ classes := by
      have := (List.mem_filter.1 h1).2
      exact of_decide_eq_true this
    exact hc s h2
  have hrt : s2l (axisField classes sf) = sortTokens (sf.filter (fun s => s ∈ classes)) := by
    rw [axisField, s2l_l2s _ hmem]
  refine ⟨?_, ?_, ?_⟩
  · rw [hrt]; exact sortTokens_perm _
  · rw [hrt]; exact sortTokens_pairwise _
  · intro hnil
    rw [axisField, hnil]
    rfl

/-- C1: the claim as stated is false on the code.  With subfamily
`["fancy"]` no token is recognized for the weight axis, and the weight
field is the empty string, not `"regular"`; with subfamily
`["bold", "bold"]` the weight field keeps the duplicate
(`"bold-bold"`), instead of being the deduplicated `"bold"`. -/
theorem c1_counterexample :
    subfamilyWeight ["fancy"] ≠ "regular"
    ∧ subfamilyWeight ["bold", "bold"] ≠ "bold"
    ∧ subfamilyWeight ["bold", "bold"] = "bold-bold" := by
  decide

/-- C1 (amended): for every FontRecord built by `addToFonthash`, each of
the weight, width and variant fields is the canonically sorted (but not
deduplicated) hyphen-joined string of the subfamily tokens recognized as
belonging to that axis, and equals the empty string (not `"regular"`)
when no subfamily token belongs to that axis. -/
theorem c1_subfamily_axis_fields (sf : List String) :
    (List.Perm (s2l (subfamilyWeight sf)) (sf.filter (fun s => s ∈ weightClassList))
      ∧ (s2l (subfamilyWeight sf)).Pairwise (fun a b => strLe a b = true)
      ∧ (sf.filter (fun s => s ∈ weightClassList) = [] → subfamilyWeight sf = ""))
    ∧ (List.Perm (s2l (subfamilyWidth sf)) (sf.filter (fun s => s ∈ widthClassList))
      ∧ (s2l (subfamilyWidth sf)).Pairwise (fun a b => strLe a b = true)
      ∧ (sf.filter (fun s => s ∈ widthClassList) = [] → subfamilyWidth sf = ""))
    ∧ (List.Perm (s2l (subfamilyVariant sf)) (sf.filter (fun s => s ∈ variantClassList))
      ∧ (s2l (subfamilyVariant sf)).Pairwise (fun a b => strLe a b = true)
      ∧ (sf.filter (fun s => s ∈ variantClassList) = [] → subfamilyVariant sf = "")) := by
  refine ⟨?_, ?_, ?_⟩
  · exact axisField_spec weightClassList sf (by decide)
  · exact axisField_spec widthClassList sf (by decide)
  · exact axisField_spec variantClassList sf (by decide)

/-- C1 witness: concrete instantiation of the amended theorem; an
unrecognized subfamily token yields the empty weight field. -/
theorem c1_subfamily_axis_fields_witness : subfamilyWeight ["fancy"] = "" :=
  (c1_subfamily_axis_fields ["fancy"]).1.2.2 (by decide)

/-! ### the `optionMappings` code table and the series/shape builders
(`buildSeries`, `buildShape`, source lines 101-141 and 495-519).  A
Python dictionary lookup that would raise `KeyError` is modelled as
`Except.error` naming the missing key. -/

/-- The `optionMappings` static table, verbatim from the source. -/
def optionMappings : List (String × String) :=
  [("lnum", "x"), ("onum", "j"), ("fakenum", ""), ("swsh", "w"),
   ("sinf", "0"), ("sups", "1"), ("pnum", "2"), ("smcp", "sc"),
   ("thin", "ul"), ("extralight", "el"), ("light", "l"), ("book", "m"),
   ("medium", "mb"), ("demibold", "db"), ("semibold", "sb"), ("bold", "b"),
   ("extrabold", "eb"), ("black", "eb"), ("heavy", "eb"),
   ("condensed", "c"), ("cond", "c"), ("cn", "c"), ("narrow", "n"),
   ("semicondensed", "sc"), ("semiextended", "sx"), ("extended", "x"),
   ("italic", "it"), ("it", "it"), ("slanted", "sl"), ("oblique", "sl"),
   ("outline", "ol"), ("regular", "")]

/-- Dictionary lookup in `optionMappings`. -/
def lookupOM (s : String) : Option String :=
  (optionMappings.find? (fun p => p.1 == s)).map Prod.snd

/-- The accumulation loop `for s in opts: code += optionMappings[s]`,
with a missing key raising `KeyError` as in Python. -/
def seriesCodes : List String → String → Except String String
  | [], acc => .ok acc
  | s :: rest, acc =>
    match lookupOM s with
    | some c => seriesCodes rest (acc ++ c)
    | none => .error ("KeyError: " ++ s)

/-- Concatenation of the codes of a (fully mapped) token list. -/
def concatCodes : List String → String
  | [] => ""
  | t :: rest => (lookupOM t).getD "" ++ concatCodes rest

/-- `buildSeries` from the source. -/
def buildSeries (weight width : String) : Except String String :=
  let seriesopts := unique (s2l weight ++ s2l width)
  if l2s seriesopts = "regular" ∨ seriesopts = [] then .ok "m"
  else seriesCodes seriesopts ""

/-- `buildShape` from the source, including the irregular combined
`"si"` code for the simultaneous `"italic"` and `"smcp"` tokens. -/
def buildShape (variant : String) : Except String String :=
  let shapeopts := unique (s2l variant)
  if l2s shapeopts = "regular" ∨ shapeopts = [] then .ok "n"
  else
    if "italic" ∈ shapeopts ∧ "smcp" ∈ shapeopts then
      seriesCodes ((shapeopts.erase "italic").erase "smcp") "si"
    else
      seriesCodes shapeopts ""

/-! ### lemmas about the builders -/

theorem l2s_eq_regular (l : List String) (h : l2s l = "regular") : l = ["regular"] := by
  cases l with
  | nil => exact absurd h (by decide)
  | cons x t =>
    cases t with
    | nil => rw [l2s_single] at h; rw [h]
    | cons y t2 =>
      exfalso
      have hd := congrArg String.data h
      rw [l2s_cons_cons_data] at hd
      have : sepChar ∈ ("regular" : String).data := by
        rw [← hd]; simp
      simp [sepChar] at this

theorem string_append_assoc (a b c : String) : a ++ b ++ c = a ++ (b ++ c) := by
  cases a with
  | mk x =>
    cases b with
    | mk y =>
      cases c with
      | mk z => exact congrArg String.mk (List.append_assoc x y z)

theorem string_append_empty (a : String) : a ++ "" = a := by
  cases a with
  | mk x => exact congrArg String.mk (List.append_nil x)

theorem string_empty_append (a : String) : "" ++ a = a := by
  cases a with
  | mk x => rfl

theorem seriesCodes_ok (l : List String) (h : ∀ t ∈ l, (lookupOM t).isSome) :
    ∀ acc, seriesCodes l acc = .ok (acc ++ concatCodes l) := by
  induction l with
  | nil => intro acc; rw [concatCodes, string_append_empty]; rfl
  | cons t rest ih =>
    intro acc
    have ht := h t (List.mem_cons_self t rest)
    cases hl : lookupOM t with
    | none => rw [hl] at ht; simp at ht
    | some c =>
      rw [seriesCodes, hl]
      show seriesCodes rest (acc ++ c) = _
      rw [ih (fun u hu => h u (List.mem_cons_of_mem t hu)) (acc ++ c)]
      rw [concatCodes, hl]
      rw [string_append_assoc]
      rfl

theorem seriesCodes_error (l : List String) (h : ∃ t, t ∈ l ∧ lookupOM t = none) :
    ∀ acc, ∃ u, u ∈ l ∧ lookupOM u = none ∧
      seriesCodes l acc = .error ("KeyError: " ++ u) := by
  induction l with
  | nil => obtain ⟨t, ht, _⟩ := h; exact absurd ht (List.not_mem_nil t)
  | cons s rest ih =>
    intro acc
    cases hs : lookupOM s with
    | none =>
      refine ⟨s, List.mem_cons_self s rest, hs, ?_⟩
      rw [seriesCodes, hs]
    | some c =>
      obtain ⟨t, ht, hnone⟩ := h
      have htr : t ∈ rest := by
        rcases List.mem_cons.1 ht with rfl | h2
        · rw [hs] at hnone; exact absurd hnone (by simp)
        · exact h2
      obtain ⟨u, hu, hun, heq⟩ := ih ⟨t, htr, hnone⟩ (acc ++ c)
      refine ⟨u, List.mem_cons_of_mem s hu, hun, ?_⟩
      rw [seriesCodes, hs]
      show seriesCodes rest (acc ++ c) = _
      rw [heq]

/-- C5: when `buildSeries` or `buildShape` encounters a token with no
entry in `optionMappings`, the computation aborts with an error naming
a missing token (the `KeyError` raised by the dictionary access), and
no series/shape code is produced. -/
theorem c5_missing_mapping :
    (∀ weight width t, t ∈ unique (s2l weight ++ s2l width) → lookupOM t = none →
      ∃ u, u ∈ unique (s2l weight ++ s2l width) ∧ lookupOM u = none ∧
        buildSeries weight width = .error ("KeyError: " ++ u))
    ∧ (∀ variant t, t ∈ unique (s2l variant) → lookupOM t = none →
      ∃ u, u ∈ unique (s2l variant) ∧ lookupOM u = none ∧
        buildShape variant = .error ("KeyError: " ++ u)) := by
  constructor
  · intro weight width t ht hnone
    have hcond : ¬ (l2s (unique (s2l weight ++ s2l width)) = "regular"
        ∨ unique (s2l weight ++ s2l width) = []) := by
      rintro (hr | hn)
      · have := l2s_eq_regular _ hr
        rw [this] at ht
        have : t = "regular" := List.mem_singleton.1 ht
        rw [this] at hnone
        exact absurd hnone (by decide)
      · rw [hn] at ht
        exact absurd ht (List.not_mem_nil t)
    obtain ⟨u, hu, hun, heq⟩ := seriesCodes_error _ ⟨t, ht, hnone⟩ ""
    refine ⟨u, hu, hun, ?_⟩
    rw [buildSeries]
    simp only [if_neg hcond]
    exact heq
  · intro variant t ht hnone
    have hcond : ¬ (l2s (unique (s2l variant)) = "regular"
        ∨ unique (s2l variant) = []) := by
      rintro (hr | hn)
      · have := l2s_eq_regular _ hr
        rw [this] at ht
        have : t = "regular" := List.mem_singleton.1 ht
        rw [this] at hnone
        exact absurd hnone (by decide)
      · rw [hn] at ht
        exact absurd ht (List.not_mem_nil t)
    by_cases hib : "italic" ∈ unique (s2l variant) ∧ "smcp" ∈ unique (s2l variant)
    · have hti : t ≠ "italic" := by
        rintro rfl; exact absurd hnone (by decide)
      have hts : t ≠ "smcp" := by
        rintro rfl; exact absurd hnone (by decide)
      have ht2 : t ∈ ((unique (s2l variant)).erase "italic").erase "smcp" :=
        (List.mem_erase_of_ne hts).2 ((List.mem_erase_of_ne hti).2 ht)
      obtain ⟨u, hu, hun, heq⟩ := seriesCodes_error _ ⟨t, ht2, hnone⟩ "si"
      refine ⟨u, List.mem_of_mem_erase (List.mem_of_mem_erase hu), hun, ?_⟩
      rw [buildShape]
      simp only [if_neg hcond, if_pos hib]
      exact heq
    · obtain ⟨u, hu, hun, heq⟩ := seriesCodes_error _ ⟨t, ht, hnone⟩ ""
      refine ⟨u, hu, hun, ?_⟩
      rw [buildShape]
      simp only [if_neg hcond, if_neg hib]
      exact heq

/-- C5 witness: the unmapped weight token `"foo"` aborts `buildSeries`
with an error naming it. -/
theorem c5_missing_mapping_witness :
    ∃ u, u ∈ unique (s2l "foo" ++ s2l "") ∧ lookupOM u = none ∧
      buildSeries "foo" "" = Except.error ("KeyError: " ++ u) :=
  c5_missing_mapping.1 "foo" "" "foo" (by decide) (by decide)

/-- C6: `buildSeries` returns the reserved `"m"` when the deduplicated
union of weight and width tokens is empty or exactly `["regular"]`, and
otherwise concatenates, in first-seen order (weight tokens before width
tokens), each token's code from `optionMappings`; in particular weight
`"bold"` with width `"extended"` yields `"bx"`, not `"xb"`. -/
theorem c6_buildSeries :
    (∀ weight width,
      (unique (s2l weight ++ s2l width) = [] ∨ unique (s2l weight ++ s2l width) = ["regular"] →
        buildSeries weight width = .ok "m")
      ∧ (unique (s2l weight ++ s2l width) ≠ [] → unique (s2l weight ++ s2l width) ≠ ["regular"] →
          (∀ t ∈ unique (s2l weight ++ s2l width), (lookupOM t).isSome) →
          buildSeries weight width = .ok (concatCodes (unique (s2l weight ++ s2l width)))))
    ∧ buildSeries "bold" "extended" = Except.ok "bx" := by
  refine ⟨fun weight width => ⟨?_, ?_⟩, ?_⟩
  · intro h
    have hcond : l2s (unique (s2l weight ++ s2l width)) = "regular"
        ∨ unique (s2l weight ++ s2l width) = [] := by
      rcases h with h | h
      · exact Or.inr h
      · exact Or.inl (by rw [h]; rfl)
    rw [buildSeries]
    simp only [if_pos hcond]
  · intro h1 h2 hm
    have hcond : ¬ (l2s (unique (s2l weight ++ s2l width)) = "regular"
        ∨ unique (s2l weight ++ s2l width) = []) := by
      rintro (hr | hn)
      · exact h2 (l2s_eq_regular _ hr)
      · exact h1 hn
    rw [buildSeries]
    simp only [if_neg hcond]
    rw [seriesCodes_ok _ hm "", string_empty_append]
  · rfl

/-- C6 witness: the regular/empty case gives `"m"`, and
weight `"light"` with width `"narrow"` gives `"l" ++ "n" = "ln"` in
weight-before-width order. -/
theorem c6_buildSeries_witness :
    buildSeries "" "" = Except.ok "m" ∧ buildSeries "light" "narrow" = Except.ok "ln" := by
  constructor
  · exact (c6_buildSeries.1 "" "").1 (Or.inl (by decide))
  · exact ((c6_buildSeries.1 "light" "narrow").2 (by decide) (by decide) (by decide)).trans rfl

/-- C3: the claim as stated is false on the code.  The variant string
`"it-smcp"` contains the italic-class token `"it"` together with
`"smcp"`, yet `buildShape` returns `"itsc"` (the separate codes for
`"it"` and `"smcp"`), which does not begin with `"si"`: the combined
code fires only for the literal token `"italic"`. -/
theorem c3_counterexample :
    buildShape "it-smcp" = Except.ok "itsc"
    ∧ ("itsc" : String).data.take 2 ≠ ("si" : String).data := by
  exact ⟨rfl, by decide⟩

/-- C3 (amended): for every variant token string containing both the
literal token `"italic"` and the small-caps token `"smcp"` (but not for
the other italic-class tokens `it`/`slanted`/`oblique`), `buildShape`
returns a shape code that begins with the reserved combined code `"si"`,
followed only by the codes of the remaining tokens — no separate italic
or small-caps codes are appended. -/
theorem c3_italic_smcp_combined (v : String)
    (h1 : "italic" ∈ unique (s2l v)) (h2 : "smcp" ∈ unique (s2l v))
    (h3 : ∀ t ∈ ((unique (s2l v)).erase "italic").erase "smcp", (lookupOM t).isSome) :
    buildShape v = .ok ("si" ++ concatCodes (((unique (s2l v)).erase "italic").erase "smcp")) := by
  have hcond : ¬ (l2s (unique (s2l v)) = "regular" ∨ unique (s2l v) = []) := by
    rintro (hr | hn)
    · have := l2s_eq_regular _ hr
      rw [this] at h1
      have : ("italic" : String) = "regular" := List.mem_singleton.1 h1
      exact absurd this (by decide)
    · rw [hn] at h1
      exact absurd h1 (List.not_mem_nil _)
  rw [buildShape]
  simp only [if_neg hcond, if_pos (And.intro h1 h2)]
  exact seriesCodes_ok _ h3 "si"

/-- C3 witness: `"italic-smcp-outline"` yields `"si"` followed by the
outline code `"ol"`. -/
theorem c3_italic_smcp_combined_witness :
    buildShape "italic-smcp-outline" = Except.ok "siol" :=
  (c3_italic_smcp_combined "italic-smcp-outline" (by decide) (by decide) (by decide)).trans rfl

/-! ### the option explorer `breakout` (source lines 984-994): yield one
choice from each group in order, dropping falsy (empty-string) choices
from the emitted combination. -/

/-- `breakout` from the source, in generator yield order. -/
def breakout : List (List String) → List (List String)
  | [] => [[]]
  | g :: rest =>
    g.flatMap (fun i =>
      if i = "" then breakout rest
      else (breakout rest).map (fun j => i :: j))

/-- The plain cross-product of the groups (one choice per group, in
group order, nothing dropped), for comparison with `breakout`. -/
def crossProduct : List (List String) → List (List String)
  | [] => [[]]
  | g :: rest => g.flatMap (fun i => (crossProduct rest).map (fun j => i :: j))

/-- `breakout` is exactly the cross-product with the empty-string
choices filtered out of every combination. -/
theorem breakout_eq (l : List (List String)) :
    breakout l = (crossProduct l).map (List.filter (fun s => !(s == ""))) := by
  induction l with
  | nil => rfl
  | cons g rest ih =>
    show (g.flatMap fun i => if i = "" then breakout rest else (breakout rest).map (fun j => i :: j))
        = ((g.flatMap fun i => (crossProduct rest).map (fun j => i :: j)).map
            (List.filter (fun s => !(s == ""))))
    rw [List.map_flatMap]
    refine List.flatMap_congr ?_
    intro i _
    by_cases hi : i = ""
    · rw [if_pos hi, List.map_map]
      have hcomp : (List.filter (fun s => !(s == "")) ∘ fun j => i :: j)
          = List.filter (fun s => !(s == "")) := by
        funext j
        simp [hi]
      rw [hcomp, ← ih]
    · rw [if_neg hi, ih, List.map_map, List.map_map]
      congr 1
      funext j
      simp [Function.comp, hi]

theorem sum_const_map (g : List String) (n : Nat) :
    (List.map (fun _ => n) g).sum = g.length * n := by
  induction g with
  | nil => simp
  | cons x xs ih =>
    simp only [List.map_cons, List.sum_cons, List.length_cons, ih]
    rw [Nat.succ_mul]
    omega

theorem crossProduct_length (l : List (List String)) :
    (crossProduct l).length = (l.map List.length).prod := by
  induction l with
  | nil => rfl
  | cons g rest ih =>
    show (g.flatMap fun i => (crossProduct rest).map (fun j => i :: j)).length = _
    rw [List.length_flatMap]
    simp only [Function.comp_def, List.length_map, ih]
    rw [sum_const_map]
    rw [List.map_cons, List.prod_cons]

theorem breakout_length (l : List (List String)) :
    (breakout l).length = (l.map List.length).prod := by
  rw [breakout_eq, List.length_map, crossProduct_length]

theorem breakout_all_empty (l : List (List String)) (h : ∀ gp ∈ l, gp = [""]) :
    breakout l = [[]] := by
  induction l with
  | nil => rfl
  | cons g rest ih =>
    have hg : g = [""] := h g (List.mem_cons_self g rest)
    rw [hg]
    show ([""].flatMap fun i => if i = "" then breakout rest else (breakout rest).map (fun j => i :: j)) = [[]]
    simp only [List.flatMap_cons, List.flatMap_nil, if_pos rfl, List.append_nil]
    exact ih (fun gp hgp => h gp (List.mem_cons_of_mem g hgp))

theorem breakout_ne_nil (l : List (List String)) (h : ∀ gp ∈ l, gp ≠ []) :
    breakout l ≠ [] := by
  have hpos : 0 < (breakout l).length := by
    rw [breakout_length]
    apply List.prod_pos
    intro x hx
    obtain ⟨gp, hgp, rfl⟩ := List.mem_map.1 hx
    exact List.length_pos.2 (h gp hgp)
  exact List.ne_nil_of_length_pos hpos

theorem breakout_mem_token (l : List (List String)) (g : List String) (i : String)
    (hall : ∀ gp ∈ l, gp ≠ []) (hg : g ∈ l) (hi : i ∈ g) (hne : i ≠ "") :
    ∃ c, c ∈ breakout l ∧ i ∈ c := by
  induction l with
  | nil => exact absurd hg (List.not_mem_nil g)
  | cons g0 rest ih =>
    have hallr : ∀ gp ∈ rest, gp ≠ [] := fun gp hgp => hall gp (List.mem_cons_of_mem g0 hgp)
    rcases List.mem_cons.1 hg with rfl | hgr
    · obtain ⟨j, hj⟩ := List.exists_mem_of_ne_nil _ (breakout_ne_nil rest hallr)
      refine ⟨i :: j, ?_, List.mem_cons_self i j⟩
      show (i :: j) ∈ g.flatMap (fun i =>
        if i = "" then breakout rest else (breakout rest).map (fun j => i :: j))
      refine List.mem_flatMap.2 ⟨i, hi, ?_⟩
      rw [if_neg hne]
      exact List.mem_map.2 ⟨j, hj, rfl⟩
    · obtain ⟨c, hc, hic⟩ := ih hallr hgr
      obtain ⟨i0, hi0⟩ := List.exists_mem_of_ne_nil g0 (hall g0 (List.mem_cons_self g0 rest))
      by_cases h0 : i0 = ""
      · refine ⟨c, ?_, hic⟩
        show c ∈ g0.flatMap (fun i =>
          if i = "" then breakout rest else (breakout rest).map (fun j => i :: j))
        refine List.mem_flatMap.2 ⟨i0, hi0, ?_⟩
        rw [if_pos h0]
        exact hc
      · refine ⟨i0 :: c, ?_, List.mem_cons_of_mem i0 hic⟩
        show (i0 :: c) ∈ g0.flatMap (fun i =>
          if i = "" then breakout rest else (breakout rest).map (fun j => i :: j))
        refine List.mem_flatMap.2 ⟨i0, hi0, ?_⟩
        rw [if_neg h0]
        exact List.mem_map.2 ⟨c, hc, rfl⟩

/-- C2: the claim as stated is false on the code.  When the single
group reduces to only its empty choice, `breakout` does not yield zero
combinations: it yields exactly one combination, and that combination is
the empty sequence (violating the claimed non-emptiness as well). -/
theorem c2_counterexample :
    ([] : List String) ∈ breakout [[""]] ∧ breakout [[""]] ≠ [] := by
  decide

/-- C2 (amended): every combination yielded by `breakout` is an ordered
sequence — possibly empty — obtained by picking one choice per group in
group order and removing the empty tokens (it equals the filtered
cross-product, in yield order); the number of yielded combinations is at
most the product of the group sizes; and if every group reduces to only
its empty choice, `breakout` yields exactly one combination, the empty
sequence, rather than none. -/
theorem c2_breakout_combinations (l : List (List String)) :
    breakout l = (crossProduct l).map (List.filter (fun s => !(s == "")))
    ∧ (breakout l).length ≤ (l.map List.length).prod
    ∧ ((∀ gp ∈ l, gp = [""]) → breakout l = [[]]) :=
  ⟨breakout_eq l, le_of_eq (breakout_length l), breakout_all_empty l⟩

/-- C2 witness: with every group reduced to its empty choice, the
explorer yields the single empty combination. -/
theorem c2_breakout_combinations_witness : breakout [[""], [""]] = [[]] :=
  (c2_breakout_combinations [[""], [""]]).2.2 (by decide)

/-- C9: `breakout` yields exactly the product of the group sizes many
sequences (counting duplicates; the empty choice contributes nothing to
its sequence), and on the empty list of groups it yields exactly one
combination, the empty sequence. -/
theorem c9_breakout_exact_count (l : List (List String)) :
    (breakout l).length = (l.map List.length).prod
    ∧ breakout ([] : List (List String)) = [[]] :=
  ⟨breakout_length l, rfl⟩

/-! ### the Classifier (`classifyFont`, source lines 472-489).  Python
dicts preserve insertion order, so each nesting level is an association
list; the "create level if absent, then mutate the entry" idiom is
`modifyD`. -/

/-- One `fonthash` record, as populated by `addToFonthash`. -/
structure FontRecord where
  filename : String
  family : String
  subfamily : List String
  vendor : String
  opticalSize : List String
  weight : String
  width : String
  variant : String
  features : List String

/-- Python `if k not in d: d[k] = init` followed by an in-place update
of `d[k]`: modify the value at `k` in place, or append `(k, f init)`. -/
def modifyD {β : Type} (k : String) (init : β) (f : β → β) :
    List (String × β) → List (String × β)
  | [] => [(k, f init)]
  | (k2, v) :: rest =>
    if k2 = k then (k2, f v) :: rest else (k2, v) :: modifyD k init f rest

/-- Dictionary lookup with default. -/
def dFind {β : Type} (k : String) (d : β) : List (String × β) → β
  | [] => d
  | (k2, v) :: rest => if k2 = k then v else dFind k d rest

/-- One leaf entry of `classifiedFonts`: `[postScriptName, opticalSize]`. -/
abbrev ClassEntry := String × List String

/-- The variant level of `classifiedFonts`. -/
abbrev VariantLevel := List (String × List ClassEntry)

/-- The width level of `classifiedFonts`. -/
abbrev WidthLevel := List (String × VariantLevel)

/-- The weight level of `classifiedFonts`. -/
abbrev WeightLevel := List (String × WidthLevel)

/-- The `classifiedFonts` nested index:
`[family][weight][width][variant] -> list of (name, opticalSize)`. -/
abbrev ClassifiedFonts := List (String × WeightLevel)

instance decEqVariantLevel : DecidableEq VariantLevel := inferInstance

instance decEqWidthLevel : DecidableEq WidthLevel := inferInstance

instance decEqWeightLevel : DecidableEq WeightLevel := inferInstance

instance decEqClassifiedFonts : DecidableEq ClassifiedFonts := inferInstance

/-- `classifyFont` from the source: create the four nesting levels if
absent and append `[postScriptName, opticalSize]` at the leaf. -/
def classifyFont (fonthash : String → FontRecord) (postScriptName : String)
    (cf : ClassifiedFonts) : ClassifiedFonts :=
  let r := fonthash postScriptName
  modifyD r.family []
    (modifyD r.weight []
      (modifyD r.width []
        (modifyD r.variant []
          (fun leaf => leaf ++ [(postScriptName, r.opticalSize)])))) cf

/-- The leaf list of `classifiedFonts` at a four-level key. -/
def cfLeaf (cf : ClassifiedFonts) (family weight width variant : String) :
    List ClassEntry :=
  dFind variant [] (dFind width [] (dFind weight [] (dFind family [] cf)))

theorem dFind_modifyD {β : Type} (k : String) (d : β) (f : β → β)
    (l : List (String × β)) : dFind k d (modifyD k d f l) = f (dFind k d l) := by
  induction l with
  | nil => simp [modifyD, dFind]
  | cons p rest ih =>
    obtain ⟨k2, v⟩ := p
    by_cases h : k2 = k
    · simp [modifyD, dFind, h]
    · simp [modifyD, dFind, h, ih]

theorem cfLeaf_classifyFont (fonthash : String → FontRecord) (n : String)
    (cf : ClassifiedFonts) :
    cfLeaf (classifyFont fonthash n cf) (fonthash n).family (fonthash n).weight
      (fonthash n).width (fonthash n).variant
    = cfLeaf cf (fonthash n).family (fonthash n).weight (fonthash n).width
        (fonthash n).variant ++ [(n, (fonthash n).opticalSize)] := by
  rw [classifyFont, cfLeaf, cfLeaf]
  rw [dFind_modifyD, dFind_modifyD, dFind_modifyD, dFind_modifyD]

/-- C4: the claim as stated is false on the code.  `classifyFont` is not
idempotent: with the same identifier and an unchanged fonthash entry, a
second call appends a second copy of the `(identifier, opticalSize)`
entry to the leaf list. -/
theorem c4_counterexample :
    classifyFont (fun _ => FontRecord.mk "MinionPro-Regular.otf" "Minion Pro"
        ["regular"] "adobe" [] "regular" "regular" "regular" ["kern", "liga", "onum"])
      "MinionPro-Regular"
      (classifyFont (fun _ => FontRecord.mk "MinionPro-Regular.otf" "Minion Pro"
          ["regular"] "adobe" [] "regular" "regular" "regular" ["kern", "liga", "onum"])
        "MinionPro-Regular" [])
    ≠ classifyFont (fun _ => FontRecord.mk "MinionPro-Regular.otf" "Minion Pro"
        ["regular"] "adobe" [] "regular" "regular" "regular" ["kern", "liga", "onum"])
      "MinionPro-Regular" [] := by
  decide

/-- C4 (amended): `classifyFont` is never idempotent per record: for any
fonthash, identifier and prior state, the second call appends a second
`(identifier, opticalSize)` pair at the same four-level key, so the
state after two calls always differs from the state after one. -/
theorem c4_classify_not_idempotent (fonthash : String → FontRecord) (n : String)
    (cf : ClassifiedFonts) :
    classifyFont fonthash n (classifyFont fonthash n cf) ≠ classifyFont fonthash n cf := by
  intro hcontra
  have h1 := cfLeaf_classifyFont fonthash n (classifyFont fonthash n cf)
  rw [hcontra] at h1
  have h2 := congrArg List.length h1
  rw [List.length_append] at h2
  simp at h2

/-! ### the option grammar and categories (source lines 71-93) and the
per-combination processing loop of `populateFontDataStructures`
(source lines 540-605). -/

/-- The configured encoding identifier. -/
def encoding : String := "LY1"

/-- `optionList` from the source: the option grammar. -/
def optionList : List (List String) :=
  [["kern"], ["liga"], ["lnum", "onum", "swsh", "sinf", "sups", "pnum", "fakenum"],
   ["smcp", ""]]

/-- `globalOptionList` from the source. -/
def globalOptionList : List String := ["kern", "liga"]

/-- `newFontFamilyOptionList` from the source. -/
def newFontFamilyOptionList : List String :=
  ["lnum", "onum", "swsh", "sinf", "sups", "pnum", "fakenum"]

/-- `weightOptionList` from the source (empty). -/
def weightOptionList : List String := []

/-- `widthOptionList` from the source (empty). -/
def widthOptionList : List String := []

/-- `variantOptionList` from the source. -/
def variantOptionList : List String := ["smcp"]

/-- `fakeOptionList` from the source: synthetic options. -/
def fakeOptionList : List String := ["fakenum"]

/-- `myOptionList` as computed per font in `populateFontDataStructures`:
keep, in each group, the empty choice and the choices supported by the
font's features; drop groups that end up empty. -/
def myOptionList (features : List String) : List (List String) :=
  (optionList.map (fun o => o.filter (fun oo => oo = "" ∨ oo ∈ features))).filter
    (fun opt => opt ≠ [])

/-- The per-combination mutable state of the inner loop of
`populateFontDataStructures`. -/
structure XState where
  xfamily : List String
  xweight : String
  xwidth : String
  xvariant : String
  cmdlineoptions : List String
deriving DecidableEq

/-- First if-statement of the loop body: global options. -/
def applyGlobalOpt (oo : String) (st : XState) : XState :=
  if oo ∈ globalOptionList ∧ oo ∉ fakeOptionList then
    { st with cmdlineoptions := st.cmdlineoptions ++ [oo] }
  else st

/-- Second if-statement: family-forming options. -/
def applyFamilyOpt (oo : String) (st : XState) : XState :=
  if oo ∈ newFontFamilyOptionList ∧ oo ∉ fakeOptionList then
    { st with xfamily := st.xfamily ++ [oo] }
  else st

/-- Third if-statement: weight-modifying options. -/
def applyWeightOpt (weight oo : String) (st : XState) : XState :=
  if oo ∈ weightOptionList ∧ oo ∉ fakeOptionList then
    { st with xweight := l2s (s2l weight ++ [oo]),
              cmdlineoptions := st.cmdlineoptions ++ [oo] }
  else st

/-- Fourth if-statement: width-modifying options. -/
def applyWidthOpt (width oo : String) (st : XState) : XState :=
  if oo ∈ widthOptionList ∧ oo ∉ fakeOptionList then
    { st with xwidth := l2s (s2l width ++ [oo]),
              cmdlineoptions := st.cmdlineoptions ++ [oo] }
  else st

/-- Fifth if-statement: variant-modifying options. -/
def applyVariantOpt (variant oo : String) (st : XState) : XState :=
  if oo ∈ variantOptionList ∧ oo ∉ fakeOptionList then
    { st with xvariant := l2s (s2l variant ++ [oo]),
              cmdlineoptions := st.cmdlineoptions ++ [oo] }
  else st

/-- The whole loop body `for oo in o:` (five independent ifs in order). -/
def processToken (weight width variant : String) (st : XState) (oo : String) : XState :=
  applyVariantOpt variant oo
    (applyWidthOpt width oo
      (applyWeightOpt weight oo
        (applyFamilyOpt oo
          (applyGlobalOpt oo st))))

/-- The start of one combination iteration. -/
def initialXState (family weight width variant : String) : XState :=
  ⟨[family], weight, width, variant, []⟩

/-- Processing one combination `o`: fold the loop body over its tokens. -/
def processCombo (family weight width variant : String) (o : List String) : XState :=
  o.foldl (processToken weight width variant) (initialXState family weight width variant)

/-- The synthesized external `fontname` of a combination. -/
def fontnameOf (name : String) (st : XState) : String :=
  l2s ([encoding, name] ++ (s2l (l2s st.xfamily)).drop 1 ++ st.cmdlineoptions)

theorem processToken_fake (weight width variant : String) (st : XState) (oo : String)
    (h : oo ∈ fakeOptionList) : processToken weight width variant st oo = st := by
  have hne : ¬ (oo ∉ fakeOptionList) := fun hh => hh h
  unfold processToken applyVariantOpt applyWidthOpt applyWeightOpt applyFamilyOpt applyGlobalOpt
  rw [if_neg (fun hc => hne hc.2), if_neg (fun hc => hne hc.2),
     if_neg (fun hc => hne hc.2), if_neg (fun hc => hne hc.2),
     if_neg (fun hc => hne hc.2)]

theorem processToken_cmdline_mem (weight width variant : String) (st : XState)
    (oo t : String) (ht : t ∈ (processToken weight width variant st oo).cmdlineoptions) :
    t ∈ st.cmdlineoptions ∨ (t = oo ∧ oo ∉ fakeOptionList) := by
  unfold processToken applyVariantOpt applyWidthOpt applyWeightOpt applyFamilyOpt
    applyGlobalOpt at ht
  split_ifs at ht <;>
    (try simp only [List.mem_append, List.mem_singleton] at ht) <;> tauto

theorem processToken_xfamily_eq (weight width variant : String) (st : XState) (oo : String) :
    (processToken weight width variant st oo).xfamily
    = if oo ∈ newFontFamilyOptionList ∧ oo ∉ fakeOptionList then st.xfamily ++ [oo]
      else st.xfamily := by
  unfold processToken applyVariantOpt applyWidthOpt applyWeightOpt applyFamilyOpt applyGlobalOpt
  split_ifs <;> rfl

theorem foldl_filter_fake (weight width variant : String) (o : List String) :
    ∀ st : XState,
      (o.filter (fun t => t ∉ fakeOptionList)).foldl (processToken weight width variant) st
      = o.foldl (processToken weight width variant) st := by
  induction o with
  | nil => intro st; rfl
  | cons oo rest ih =>
    intro st
    by_cases hf : oo ∈ fakeOptionList
    · have hp : (decide (oo ∉ fakeOptionList)) = false := by
        simp [hf]
      rw [List.filter_cons]
      rw [hp]
      simp only [Bool.false_eq_true, if_false, List.foldl_cons]
      rw [processToken_fake weight width variant st oo hf]
      exact ih st
    · have hp : (decide (oo ∉ fakeOptionList)) = true := by
        simp [hf]
      rw [List.filter_cons, hp]
      simp only [if_true, List.foldl_cons]
      exact ih (processToken weight width variant st oo)

theorem foldl_cmdline_inv (weight width variant : String) (o : List String) :
    ∀ st : XState, (∀ t ∈ st.cmdlineoptions, t ∉ fakeOptionList) →
      ∀ t ∈ (o.foldl (processToken weight width variant) st).cmdlineoptions,
        t ∉ fakeOptionList := by
  induction o with
  | nil => intro st h; exact h
  | cons oo rest ih =>
    intro st h
    refine ih (processToken weight width variant st oo) ?_
    intro t ht
    rcases processToken_cmdline_mem weight width variant st oo t ht with h1 | h2
    · exact h t h1
    · rw [h2.1]; exact h2.2

theorem foldl_xfamily_inv (family weight width variant : String) (o : List String) :
    ∀ st : XState,
      (∃ opts, st.xfamily = family :: opts
        ∧ ∀ t ∈ opts, t ∈ newFontFamilyOptionList ∧ t ∉ fakeOptionList) →
      ∃ opts, (o.foldl (processToken weight width variant) st).xfamily = family :: opts
        ∧ ∀ t ∈ opts, t ∈ newFontFamilyOptionList ∧ t ∉ fakeOptionList := by
  induction o with
  | nil => intro st h; exact h
  | cons oo rest ih =>
    intro st h
    obtain ⟨opts, hopts, hall⟩ := h
    refine ih (processToken weight width variant st oo) ?_
    rw [processToken_xfamily_eq]
    by_cases hc : oo ∈ newFontFamilyOptionList ∧ oo ∉ fakeOptionList
    · refine ⟨opts ++ [oo], ?_, ?_⟩
      · rw [if_pos hc, hopts]; rfl
      · intro t ht
        rcases List.mem_append.1 ht with h1 | h2
        · exact hall t h1
        · rw [List.mem_singleton.1 h2]; exact hc
    · exact ⟨opts, by rw [if_neg hc]; exact hopts, hall⟩

/-- C7: a synthetic (fake) token in a combination is a no-op for naming:
filtering fake tokens out of the combination does not change any of
`xfamily`/`xweight`/`xwidth`/`xvariant`/`cmdlineoptions`; no fake token
ever enters `cmdlineoptions` or the family options; the synthesized
`fontname` joins exactly the encoding, the identifier, the (fake-free)
family options and the (fake-free) command-line options; and a group
containing the fake token still yields a non-empty combination, so the
combination is processed. -/
theorem c7_fake_options_frame (family weight width variant : String) (o : List String) :
    (processCombo family weight width variant (o.filter (fun t => t ∉ fakeOptionList))
      = processCombo family weight width variant o)
    ∧ (∀ t ∈ (processCombo family weight width variant o).cmdlineoptions,
        t ∉ fakeOptionList)
    ∧ (∀ t ∈ (processCombo family weight width variant o).xfamily.drop 1,
        t ∉ fakeOptionList)
    ∧ (∀ name, family ≠ "" → sepChar ∉ family.data →
        fontnameOf name (processCombo family weight width variant o)
        = l2s ([encoding, name]
            ++ (processCombo family weight width variant o).xfamily.drop 1
            ++ (processCombo family weight width variant o).cmdlineoptions))
    ∧ (∀ (l : List (List String)) (g : List String),
        (∀ gp ∈ l, gp ≠ []) → g ∈ l → "fakenum" ∈ g →
        ∃ c, c ∈ breakout l ∧ "fakenum" ∈ c ∧ c ≠ []) := by
  refine ⟨?_, ?_, ?_, ?_, ?_⟩
  · exact foldl_filter_fake weight width variant o (initialXState family weight width variant)
  · intro t ht
    refine foldl_cmdline_inv weight width variant o
      (initialXState family weight width variant) ?_ t ht
    intro u hu
    exact absurd hu (List.not_mem_nil u)
  · obtain ⟨opts, hx, hall⟩ := foldl_xfamily_inv family weight width variant o
      (initialXState family weight width variant) ⟨[], rfl, by simp⟩
    have hx0 : (processCombo family weight width variant o).xfamily = family :: opts := hx
    intro t ht
    rw [hx0] at ht
    simp only [List.drop_succ_cons, List.drop_zero] at ht
    exact (hall t ht).2
  · intro name hfam1 hfam2
    obtain ⟨opts, hx, hall⟩ := foldl_xfamily_inv family weight width variant o
      (initialXState family weight width variant) ⟨[], rfl, by simp⟩
    have hx0 : (processCombo family weight width variant o).xfamily = family :: opts := hx
    have hsplit : s2l (l2s (family :: opts)) = family :: opts := by
      apply s2l_l2s
      intro s hs
      rcases List.mem_cons.1 hs with rfl | hs2
      · exact ⟨hfam1, hfam2⟩
      · have hnf : ∀ c ∈ newFontFamilyOptionList, c ≠ "" ∧ sepChar ∉ c.data := by decide
        exact hnf s (hall s hs2).1
    rw [fontnameOf, hx0, hsplit]
  · intro l g hall hg hfg
    obtain ⟨c, hc, hfc⟩ := breakout_mem_token l g "fakenum" hall hg hfg (by decide)
    exact ⟨c, hc, hfc, List.ne_nil_of_mem hfc⟩

/-- C7 witness: in the spec's Minion Pro example the fake token is
carried in a combination without reaching the option list or the family
options, and the fake-only numeral group still yields combinations. -/
theorem c7_fake_options_frame_witness :
    ("fakenum" ∉ (processCombo "Minion Pro" "regular" "regular" "regular"
        ["kern", "liga", "fakenum", "smcp"]).cmdlineoptions)
    ∧ ("fakenum" ∉ (processCombo "Minion Pro" "regular" "regular" "regular"
        ["kern", "liga", "fakenum", "smcp"]).xfamily.drop 1)
    ∧ (∃ c, c ∈ breakout (myOptionList ["kern", "liga", "fakenum"]) ∧ "fakenum" ∈ c ∧ c ≠ []) := by
  refine ⟨?_, ?_, ?_⟩
  · intro hmem
    exact (c7_fake_options_frame "Minion Pro" "regular" "regular" "regular"
      ["kern", "liga", "fakenum", "smcp"]).2.1 "fakenum" hmem (by decide)
  · intro hmem
    exact (c7_fake_options_frame "Minion Pro" "regular" "regular" "regular"
      ["kern", "liga", "fakenum", "smcp"]).2.2.1 "fakenum" hmem (by decide)
  · exact (c7_fake_options_frame "Minion Pro" "regular" "regular" "regular"
      ["kern", "liga", "fakenum", "smcp"]).2.2.2.2 (myOptionList ["kern", "liga", "fakenum"])
      ["fakenum"] (by decide) (by decide) (by decide)

/-! ### the `explodedFonts` index (source lines 575-605).  The leaf is a
Python dict whose five fields are assigned one by one on every
insertion; `dict[k] = v` is `setField`. -/

/-- Python `d[k] = v` on an insertion-ordered dict: update in place, or
append at the end. -/
def setField (k v : String) : List (String × String) → List (String × String)
  | [] => [(k, v)]
  | (k2, v2) :: rest =>
    if k2 = k then (k2, v) :: rest else (k2, v2) :: setField k v rest

/-- A sequence of dict assignments, performed left to right. -/
def applyFields (ps : List (String × String)) (l : List (String × String)) :
    List (String × String) :=
  ps.foldl (fun acc p => setField p.1 p.2 acc) l

/-- The values stored in one `explodedFonts` leaf. -/
structure ExplodedRecord where
  filename : String
  family : String
  vendor : String
  fontname : String
  cmdlineoptions : String

/-- The five leaf assignments of `populateFontDataStructures`, in source
order. -/
def fieldsOf (r : ExplodedRecord) : List (String × String) :=
  [("filename", r.filename), ("family", r.family), ("vendor", r.vendor),
   ("fontname", r.fontname), ("cmdlineoptions", r.cmdlineoptions)]

/-- Assign all five leaf fields of a result record. -/
def leafSet (r : ExplodedRecord) (leaf : List (String × String)) :
    List (String × String) :=
  applyFields (fieldsOf r) leaf

/-- The optical level of `explodedFonts`. -/
abbrev OpticalLevel := List (String × List (String × String))

/-- The shape level of `explodedFonts`. -/
abbrev ShapeLevel := List (String × OpticalLevel)

/-- The series level of `explodedFonts`. -/
abbrev SeriesLevel := List (String × ShapeLevel)

/-- The `explodedFonts` index `[xfamily][series][shape][optical]`. -/
abbrev ExplodedFonts := List (String × SeriesLevel)

/-- One insertion of `populateFontDataStructures`: create the four
levels if absent, then assign the five leaf fields. -/
def insertExploded (xfamily series shape optical : String) (r : ExplodedRecord)
    (ef : ExplodedFonts) : ExplodedFonts :=
  modifyD xfamily []
    (modifyD series []
      (modifyD shape []
        (modifyD optical [] (leafSet r)))) ef

/-- The leaf dict of `explodedFonts` at a four-level key. -/
def efLeaf (ef : ExplodedFonts) (xfamily series shape optical : String) :
    List (String × String) :=
  dFind optical [] (dFind shape [] (dFind series [] (dFind xfamily [] ef)))

theorem setField_absorb (k v w : String) (l : List (String × String)) :
    setField k v (setField k w l) = setField k v l := by
  induction l with
  | nil => simp [setField]
  | cons p rest ih =>
    obtain ⟨k2, u⟩ := p
    by_cases h : k2 = k
    · simp [setField, h]
    · simp [setField, h, ih]

theorem setField_comm_of_mem (k k2 v v2 : String) (l : List (String × String))
    (hne : k ≠ k2) (hmem : k ∈ l.map Prod.fst) :
    setField k v (setField k2 v2 l) = setField k2 v2 (setField k v l) := by
  induction l with
  | nil => exact absurd hmem (List.not_mem_nil k)
  | cons p rest ih =>
    obtain ⟨k3, u⟩ := p
    by_cases h3 : k3 = k
    · subst h3
      simp [setField, hne, Ne.symm hne]
    · by_cases h4 : k3 = k2
      · subst h4
        simp [setField, h3]
      · have hmem2 : k ∈ rest.map Prod.fst := by
          rw [List.map_cons] at hmem
          rcases List.mem_cons.1 hmem with h5 | h5
          · exact absurd h5.symm h3
          · exact h5
        simp [setField, h3, h4, ih hmem2]

theorem mem_keys_setField_self (k v : String) (l : List (String × String)) :
    k ∈ (setField k v l).map Prod.fst := by
  induction l with
  | nil => simp [setField]
  | cons p rest ih =>
    obtain ⟨k2, u⟩ := p
    by_cases h : k2 = k
    · simp [setField, h]
    · simp only [setField, if_neg h, List.map_cons]
      exact List.mem_cons_of_mem k2 ih

theorem mem_keys_setField_mono (k k2 v : String) (l : List (String × String))
    (h : k ∈ l.map Prod.fst) : k ∈ (setField k2 v l).map Prod.fst := by
  induction l with
  | nil => exact absurd h (List.not_mem_nil k)
  | cons p rest ih =>
    obtain ⟨k3, u⟩ := p
    rw [List.map_cons] at h
    by_cases h3 : k3 = k2
    · simp only [setField, if_pos h3, List.map_cons]
      exact h
    · simp only [setField, if_neg h3, List.map_cons]
      rcases List.mem_cons.1 h with h4 | h4
      · exact List.mem_cons.2 (Or.inl h4)
      · exact List.mem_cons.2 (Or.inr (ih h4))

theorem mem_keys_applyFields (ps : List (String × String)) (k : String)
    (l : List (String × String)) (h : k ∈ l.map Prod.fst) :
    k ∈ (applyFields ps l).map Prod.fst := by
  induction ps generalizing l with
  | nil => exact h
  | cons p ps2 ih => exact ih (setField p.1 p.2 l) (mem_keys_setField_mono k p.1 p.2 l h)

theorem applyFields_setField_comm (ps : List (String × String)) :
    ∀ (k v : String) (l : List (String × String)),
      (∀ p ∈ ps, p.1 ≠ k) → k ∈ l.map Prod.fst →
      applyFields ps (setField k v l) = setField k v (applyFields ps l) := by
  induction ps with
  | nil => intro k v l _ _; rfl
  | cons p ps2 ih =>
    intro k v l hne hm
    have hp : p.1 ≠ k := hne p (List.mem_cons_self p ps2)
    have hcomm : setField k v (setField p.1 p.2 l) = setField p.1 p.2 (setField k v l) :=
      setField_comm_of_mem k p.1 v p.2 l (fun hh => hp hh.symm) hm
    show applyFields ps2 (setField p.1 p.2 (setField k v l)) = _
    rw [← hcomm]
    exact ih k v (setField p.1 p.2 l)
      (fun q hq => hne q (List.mem_cons_of_mem p hq))
      (mem_keys_setField_mono k p.1 p.2 l hm)

theorem applyFields_absorb (ps : List (String × String)) :
    ∀ (qs : List (String × String)) (l : List (String × String)),
      ps.map Prod.fst = qs.map Prod.fst → (ps.map Prod.fst).Nodup →
      applyFields qs (applyFields ps l) = applyFields qs l := by
  induction ps with
  | nil =>
    intro qs l hkeys _
    have hq : qs = [] := List.map_eq_nil_iff.1 hkeys.symm
    rw [hq]
    rfl
  | cons p ps2 ih =>
    intro qs l hkeys hnd
    obtain ⟨k, v⟩ := p
    cases qs with
    | nil => simp at hkeys
    | cons q qs2 =>
      obtain ⟨k2, w⟩ := q
      rw [List.map_cons, List.map_cons] at hkeys
      injection hkeys with hk htl
      subst hk
      rw [List.map_cons] at hnd
      have hnotin : k ∉ ps2.map Prod.fst := (List.nodup_cons.1 hnd).1
      have hnd2 : (ps2.map Prod.fst).Nodup := (List.nodup_cons.1 hnd).2
      have hppp : ∀ p ∈ ps2, p.1 ≠ k := by
        intro p hp hh
        exact hnotin (hh ▸ List.mem_map_of_mem Prod.fst hp)
      show applyFields qs2 (setField k w (applyFields ps2 (setField k v l)))
          = applyFields qs2 (setField k w l)
      have h1 : setField k w (applyFields ps2 (setField k v l))
          = applyFields ps2 (setField k w (setField k v l)) :=
        (applyFields_setField_comm ps2 k w (setField k v l) hppp
          (mem_keys_setField_self k v l)).symm
      rw [h1, setField_absorb k w v l]
      exact ih qs2 (setField k w l) htl hnd2

theorem leafSet_absorb (a b : ExplodedRecord) (leaf : List (String × String)) :
    leafSet b (leafSet a leaf) = leafSet b leaf := by
  have hka : (fieldsOf a).map Prod.fst
      = ["filename", "family", "vendor", "fontname", "cmdlineoptions"] := rfl
  have hkb : (fieldsOf b).map Prod.fst
      = ["filename", "family", "vendor", "fontname", "cmdlineoptions"] := rfl
  apply applyFields_absorb
  · rw [hka, hkb]
  · rw [hka]
    decide

theorem modifyD_modifyD {β : Type} (k : String) (init : β) (f g : β → β)
    (l : List (String × β)) :
    modifyD k init f (modifyD k init g l) = modifyD k init (fun x => f (g x)) l := by
  induction l with
  | nil => simp [modifyD]
  | cons p rest ih =>
    obtain ⟨k2, v⟩ := p
    by_cases h : k2 = k
    · simp [modifyD, h]
    · simp [modifyD, h, ih]

theorem modifyD_fuse {β : Type} (k : String) (init : β) (f g : β → β)
    (hfg : (fun x => f (g x)) = f) (l : List (String × β)) :
    modifyD k init f (modifyD k init g l) = modifyD k init f l := by
  rw [modifyD_modifyD, hfg]

/-- C8: each `(xfamily, series, shape, optical)` key of `explodedFonts`
holds at most one result record: a later insertion at an
already-populated key overwrites all five fields with the new values —
last-write-wins, never a merge of old and new fields.  Concretely,
inserting `b` after `a` at the same key produces exactly the state of
inserting `b` alone, and the leaf then holds precisely the five fields
of `b`. -/
theorem c8_exploded_last_write_wins (xfamily series shape optical : String)
    (a b : ExplodedRecord) (ef : ExplodedFonts) :
    (insertExploded xfamily series shape optical b
        (insertExploded xfamily series shape optical a ef)
      = insertExploded xfamily series shape optical b ef)
    ∧ (efLeaf (insertExploded xfamily series shape optical b ef)
        xfamily series shape optical
      = leafSet b (efLeaf ef xfamily series shape optical))
    ∧ (efLeaf (insertExploded xfamily series shape optical b []) xfamily series shape optical
      = [("filename", b.filename), ("family", b.family), ("vendor", b.vendor),
         ("fontname", b.fontname), ("cmdlineoptions", b.cmdlineoptions)]) := by
  refine ⟨?_, ?_, ?_⟩
  · have h4 : (fun z => leafSet b (leafSet a z)) = leafSet b :=
      funext (fun z => leafSet_absorb a b z)
    have h3 : (fun y => modifyD optical [] (leafSet b) (modifyD optical [] (leafSet a) y))
        = modifyD optical [] (leafSet b) :=
      funext (fun y => modifyD_fuse optical [] (leafSet b) (leafSet a) h4 y)
    have h2 : (fun y => modifyD shape [] (modifyD optical [] (leafSet b))
          (modifyD shape [] (modifyD optical [] (leafSet a)) y))
        = modifyD shape [] (modifyD optical [] (leafSet b)) :=
      funext (fun y => modifyD_fuse shape [] _ _ h3 y)
    have h1 : (fun y => modifyD series [] (modifyD shape [] (modifyD optical [] (leafSet b)))
          (modifyD series [] (modifyD shape [] (modifyD optical [] (leafSet a))) y))
        = modifyD series [] (modifyD shape [] (modifyD optical [] (leafSet b))) :=
      funext (fun y => modifyD_fuse series [] _ _ h2 y)
    exact modifyD_fuse xfamily [] _ _ h1 ef
  · rw [insertExploded, efLeaf, efLeaf]
    rw [dFind_modifyD, dFind_modifyD, dFind_modifyD, dFind_modifyD]
  · rw [insertExploded, efLeaf]
    rw [dFind_modifyD, dFind_modifyD, dFind_modifyD, dFind_modifyD]
    rfl

/-- C10: for every list of non-empty strings none of which contains the
separator `"-"`, `s2l (l2s l) = l`; moreover `s2l "" = []` and
`l2s [] = ""`, so the empty string and the empty token list round-trip
to each other. -/
theorem c10_roundtrip (l : List String)
    (h : ∀ s ∈ l, s ≠ "" ∧ sepChar ∉ s.data) :
    s2l (l2s l) = l ∧ s2l "" = [] ∧ l2s [] = "" :=
  ⟨s2l_l2s l h, rfl, rfl⟩

/-- C10 witness: a concrete two-token round-trip. -/
theorem c10_roundtrip_witness : s2l (l2s ["bold", "italic"]) = ["bold", "italic"] :=
  (c10_roundtrip ["bold", "italic"] (by decide)).1

end Otfinst
